import Mathlib

/-!
# Verification of `decrypter.py` (tonyenc-decrypter)

Shallow embedding of the decrypter's core: the cipher engine
(`decrypt_content`), the per-file decoder (`decrypt_file`) over an explicit
filesystem model, and the batch walker (`process_directory`).  Bytes are
modelled as `Nat` (values < 256 where the Python `bytes` type guarantees it),
byte strings as `List Nat`, filesystem paths as `List String` (path
components).
-/

set_option autoImplicit false

namespace Decrypter

/-- Python's `~d & 0xFF` on an arbitrary-precision integer `d ≥ 0`: the
complement `~d` is `-d - 1`, and `& 0xFF` on a (possibly negative) integer is
the nonnegative remainder mod 256, which is what Lean's `Int` `%` (emod)
computes. -/
def pyCompl8 (d : Nat) : Nat := ((-(d : Int) - 1) % 256).toNat

/-- Outcome of `decrypt_content`: `noMatch` models the Python `None` return on
header mismatch, `err` models an uncaught exception escaping the function
(an `IndexError` from `key[key_idx]`, possible only for an empty key), and
`ok` carries the decoded body. -/
inductive DecryptResult where
  | noMatch : DecryptResult
  | err : DecryptResult
  | ok (data : List Nat) : DecryptResult
deriving DecidableEq, Repr

/-- The body loop of `decrypt_content` (decrypter.py lines 23-29), with the
mutable `data` buffer turned into structural recursion over the remaining
suffix.  `keyIdx` and `dataIdx` are the Python `key_idx` / `data_idx`.
Key accesses use `List.get?` so that an out-of-bounds index (Python
`IndexError`) yields `none`; the Python expression evaluates `key[key_idx]`
before computing the mask, and so does this definition.  For a nonempty key
the Nat subtraction `key.length - 1` agrees with Python's `key_len - 1`. -/
def decryptGo (key : List Nat) : Nat → Nat → List Nat → Option (List Nat)
  | _, _, [] => some []
  | keyIdx, dataIdx, d :: rest =>
    if dataIdx &&& 1 ≠ 0 then
      (key.get? keyIdx).bind (fun k0 =>
        (key.get? ((k0 + dataIdx + keyIdx) &&& (key.length - 1))).bind (fun k1 =>
          (decryptGo key ((k0 + dataIdx + keyIdx) &&& (key.length - 1))
              (dataIdx + 1) rest).map
            (fun out => (k1 ^^^ pyCompl8 d) :: out)))
    else
      (decryptGo key keyIdx (dataIdx + 1) rest).map (fun out => d :: out)

/-- `decrypt_content` (decrypter.py lines 15-31).  The Python `if data:` guard
only skips the loop when the body is empty; `decryptGo` on `[]` is `some []`
with no key access either, so the guard needs no separate branch. -/
def decrypt_content (encrypted_content key header : List Nat) : DecryptResult :=
  if encrypted_content.take header.length ≠ header then DecryptResult.noMatch
  else
    match decryptGo key 0 0 (encrypted_content.drop header.length) with
    | none => DecryptResult.err
    | some d => DecryptResult.ok d

/-- Modelled from the spec's wording of the body recurrence (C1): a total
transform in which "odd position" is `i % 2 = 1`, the cursor is updated to
`(key[keyIdx] + i + keyIdx) AND (keyLen - 1)` and the output byte is
`key[keyIdx] XOR ((NOT input[i]) AND 0xFF)`; key lookups are `getD` since the
spec assumes they are in bounds. -/
def specTransform (key : List Nat) : Nat → Nat → List Nat → List Nat
  | _, _, [] => []
  | keyIdx, i, d :: rest =>
    if i % 2 = 1 then
      (key.getD ((key.getD keyIdx 0 + i + keyIdx) &&& (key.length - 1)) 0 ^^^ pyCompl8 d)
        :: specTransform key ((key.getD keyIdx 0 + i + keyIdx) &&& (key.length - 1))
            (i + 1) rest
    else
      d :: specTransform key keyIdx (i + 1) rest

/-- Modelled from the spec (C2): `encode(plain, key)` advances the same
`keyIdx` recurrence at odd positions and sets
`encoded[i] = (NOT (key[keyIdx] XOR plain[i])) AND 0xFF`, leaving even
positions unchanged. -/
def encode (key : List Nat) : Nat → Nat → List Nat → List Nat
  | _, _, [] => []
  | keyIdx, i, p :: rest =>
    if i % 2 = 1 then
      pyCompl8 (key.getD ((key.getD keyIdx 0 + i + keyIdx) &&& (key.length - 1)) 0 ^^^ p)
        :: encode key ((key.getD keyIdx 0 + i + keyIdx) &&& (key.length - 1)) (i + 1) rest
    else
      p :: encode key keyIdx (i + 1) rest

/-- Modelled from the spec (C9): the body loop with "true mod-keyLen
wraparound" (`% keyLen`) in place of the AND mask, used only to exhibit that
the mask recurrence differs from true modular wraparound for a
non-power-of-two key length. -/
def decryptModGo (key : List Nat) : Nat → Nat → List Nat → Option (List Nat)
  | _, _, [] => some []
  | keyIdx, dataIdx, d :: rest =>
    if dataIdx &&& 1 ≠ 0 then
      (key.get? keyIdx).bind (fun k0 =>
        (key.get? ((k0 + dataIdx + keyIdx) % key.length)).bind (fun k1 =>
          (decryptModGo key ((k0 + dataIdx + keyIdx) % key.length)
              (dataIdx + 1) rest).map
            (fun out => (k1 ^^^ pyCompl8 d) :: out)))
    else
      (decryptModGo key keyIdx (dataIdx + 1) rest).map (fun out => d :: out)

/-- Model of the filesystem state seen by `decrypt_file` /
`process_directory`: a partial map from paths (component lists) to file
contents, and a predicate for which directories exist.  I/O is modelled as:
reading fails exactly when the path holds no file, directory creation and
writing succeed. -/
structure FS where
  files : List String → Option (List Nat)
  dirs : List String → Bool

/-- `Path.exists()` is true for files and directories alike. -/
def FS.pathExists (fs : FS) (p : List String) : Bool :=
  (fs.files p).isSome || fs.dirs p

/-- Boolean component-list test used by the directory model: does `p` start
with `q`? -/
def isPrefB : List String → List String → Bool
  | [], _ => true
  | _ :: _, [] => false
  | a :: as, b :: bs => a == b && isPrefB as bs

/-- Character-list version of the same test, for `pyEndsWith`. -/
def charPrefB : List Char → List Char → Bool
  | [], _ => true
  | _ :: _, [] => false
  | a :: as, b :: bs => a == b && charPrefB as bs

/-- Python's `str.endswith(suffix)`: a case-sensitive literal suffix match,
modelled on the character lists of the two strings. -/
def pyEndsWith (s suffix : String) : Bool :=
  charPrefB suffix.data.reverse s.data.reverse

/-- Filesystem events recorded by the embedding, in program order: file
reads, directory creation, file writes, and the progress-reporter start /
per-file update of `process_directory`. -/
inductive FsEvent where
  | readF (p : List String) : FsEvent
  | mkdirP (p : List String) : FsEvent
  | writeF (p : List String) (content : List Nat) : FsEvent
  | progressStart : FsEvent
  | progressStep : FsEvent
deriving DecidableEq, Repr

/-- `output_file.parent.mkdir(parents=True, exist_ok=True)`: every nonempty
path that `p.dropLast` starts with becomes a directory. -/
def mkdirParents (fs : FS) (p : List String) : FS :=
  { files := fs.files
    dirs := fun q => fs.dirs q || (!q.isEmpty && isPrefB q p.dropLast) }

/-- `decrypt_file` (decrypter.py lines 34-59).  Returns the Python boolean
result, the filesystem after the call, and the trace of filesystem /
reporter events.  The `try/except` that converts any exception to `False`
shows up as the `none` (failed read) and `err` (decrypt exception) branches;
the walrus `if decrypted_content := ...` is falsy both for `None` (header
mismatch) and for an empty decoded body. -/
def decrypt_file (fs : FS) (input_file output_file : List String)
    (key header : List Nat) (overwrite : Bool) : Bool × FS × List FsEvent :=
  if !overwrite && fs.pathExists output_file then (false, fs, [])
  else
    match fs.files input_file with
    | none => (false, fs, [FsEvent.readF input_file])
    | some encrypted_content =>
      match decrypt_content encrypted_content key header with
      | DecryptResult.ok d =>
        if d.isEmpty then (false, fs, [FsEvent.readF input_file])
        else
          (true,
           { files := fun q =>
               if q = output_file then some d else (mkdirParents fs output_file).files q
             dirs := (mkdirParents fs output_file).dirs },
           [FsEvent.readF input_file, FsEvent.mkdirP output_file,
            FsEvent.writeF output_file d])
      | _ => (false, fs, [FsEvent.readF input_file])

/-- `input_file.with_suffix(input_file.suffix + ".decoded")`: replacing the
final component's suffix by that same suffix followed by `".decoded"` appends
`".decoded"` to the filename, for every filename (with or without a dot). -/
def withSuffixDecoded (p : List String) : List String :=
  p.dropLast ++ [p.getLastD "" ++ ".decoded"]

/-- The file-collection loop of `process_directory` (decrypter.py lines
70-83).  `os.walk` is embedded as its result: the list of
`(root, files-in-root)` pairs, each root given as a component list.
`input_file.relative_to(input_dir)` is modelled as dropping the first
`input_dir.length` components (`os.walk` only yields roots under
`input_dir`). -/
def collect_tasks (walkRes : List (List String × List String))
    (input_dir output_dir : List String) (extension : String) :
    List (List String × List String) :=
  walkRes.foldl
    (fun acc rf =>
      rf.2.foldl
        (fun acc2 f =>
          if pyEndsWith f extension then
            acc2 ++ [((rf.1 ++ [f] : List String),
              if output_dir ≠ input_dir then
                output_dir ++ (rf.1 ++ [f]).drop input_dir.length
              else withSuffixDecoded (rf.1 ++ [f]))]
          else acc2)
        acc)
    []

/-- `process_directory` (decrypter.py lines 62-105): collect tasks, return
`(0, 0)` with no events when nothing matched, otherwise start the progress
reporter and run `decrypt_file` sequentially, threading the filesystem and
counting `True` results. -/
def process_directory (fs : FS) (walkRes : List (List String × List String))
    (input_dir output_dir : List String) (key header : List Nat)
    (extension : String) (overwrite : Bool) :
    (Nat × Nat) × FS × List FsEvent :=
  let files_to_process := collect_tasks walkRes input_dir output_dir extension
  let total_count := files_to_process.length
  if total_count = 0 then ((0, 0), fs, [])
  else
    let r := files_to_process.foldl
      (fun acc t =>
        let r := decrypt_file acc.2.1 t.1 t.2 key header overwrite
        (acc.1 + (if r.1 then 1 else 0), r.2.1,
         acc.2.2 ++ FsEvent.progressStep :: r.2.2))
      ((0 : Nat), fs, [FsEvent.progressStart])
    ((r.1, total_count), r.2.1, r.2.2)

/-- Sequential per-task run, written as direct recursion: the number of
tasks on which `decrypt_file` returns `True` (threading the filesystem from
one call to the next) and the final filesystem.  Used to state the batch
accounting claim against the `foldl` inside `process_directory`. -/
def decrypt_tasks (key header : List Nat) (overwrite : Bool) :
    FS → List (List String × List String) → Nat × FS
  | fs, [] => (0, fs)
  | fs, t :: ts =>
    let r := decrypt_file fs t.1 t.2 key header overwrite
    let rest := decrypt_tasks key header overwrite r.2.1 ts
    ((if r.1 then 1 else 0) + rest.1, rest.2)

/-! ## Helper lemmas -/

theorem mask_lt (key : List Nat) (hk : key ≠ []) (x : Nat) :
    x &&& (key.length - 1) < key.length := by
  have h1 : x &&& (key.length - 1) ≤ key.length - 1 := Nat.and_le_right
  have h2 : 0 < key.length := List.length_pos.mpr hk
  omega

theorem get?_eq_getD {l : List Nat} {c : Nat} (h : c < l.length) :
    l.get? c = some (l.getD c 0) := by
  rw [List.getD_eq_get?, List.get?_eq_get h]
  rfl

theorem pyCompl8_eq (d : Nat) : pyCompl8 d = 255 - d % 256 := by
  unfold pyCompl8
  omega

theorem pyCompl8_invol (x : Nat) : pyCompl8 (pyCompl8 x) = x % 256 := by
  rw [pyCompl8_eq, pyCompl8_eq]
  omega

theorem odd_of_and_one {i : Nat} (h : i &&& 1 ≠ 0) : i % 2 = 1 := by
  rw [Nat.and_one_is_mod] at h
  omega

theorem and_one_of_odd {i : Nat} (h : i % 2 = 1) : i &&& 1 ≠ 0 := by
  rw [Nat.and_one_is_mod]
  omega

/-- For a nonempty key the body loop always succeeds and computes the
spec-level transform (every key access is in bounds thanks to the mask). -/
theorem decryptGo_eq_specTransform (key : List Nat) (hk : key ≠ []) :
    ∀ (l : List Nat) (i c : Nat), c < key.length →
      decryptGo key c i l = some (specTransform key c i l) := by
  intro l
  induction l with
  | nil => intro i c _; rfl
  | cons d rest ih =>
    intro i c hc
    by_cases hodd : i % 2 = 1
    · have hodd' : i &&& 1 ≠ 0 := and_one_of_odd hodd
      have hc2 := mask_lt key hk (key.getD c 0 + i + c)
      rw [decryptGo, if_pos hodd', get?_eq_getD hc]
      simp only [Option.some_bind]
      rw [get?_eq_getD hc2]
      simp only [Option.some_bind]
      rw [ih (i + 1) _ hc2]
      simp only [Option.map_some']
      rw [specTransform, if_pos hodd]
    · have hodd' : ¬ i &&& 1 ≠ 0 := fun h => hodd (odd_of_and_one h)
      rw [decryptGo, if_neg hodd', ih (i + 1) c hc]
      simp only [Option.map_some']
      rw [specTransform, if_neg hodd]

theorem getD_lt_of_forall {key : List Nat} (hkb : ∀ b ∈ key, b < 256) {c : Nat}
    (hc : c < key.length) : key.getD c 0 < 256 := by
  rw [List.getD_eq_get key 0 hc]
  exact hkb _ (List.get_mem key c hc)

/-- Decoding inverts the spec-level `encode` with the same starting cursor
and position, for byte-valued key and plaintext. -/
theorem decryptGo_encode (key : List Nat) (hk : key ≠ [])
    (hkb : ∀ b ∈ key, b < 256) :
    ∀ (plain : List Nat) (i c : Nat), c < key.length →
      (∀ b ∈ plain, b < 256) →
      decryptGo key c i (encode key c i plain) = some plain := by
  intro plain
  induction plain with
  | nil => intro i c _ _; rfl
  | cons p rest ih =>
    intro i c hc hp
    have hrest : ∀ b ∈ rest, b < 256 := fun b hb => hp b (List.mem_cons_of_mem _ hb)
    by_cases hodd : i % 2 = 1
    · have hodd' : i &&& 1 ≠ 0 := and_one_of_odd hodd
      have hc2 := mask_lt key hk (key.getD c 0 + i + c)
      have hk2 : key.getD ((key.getD c 0 + i + c) &&& (key.length - 1)) 0 < 256 :=
        getD_lt_of_forall hkb hc2
      have hpb : p < 256 := hp p (List.mem_cons_self p rest)
      rw [encode, if_pos hodd]
      rw [decryptGo, if_pos hodd', get?_eq_getD hc]
      simp only [Option.some_bind]
      rw [get?_eq_getD hc2]
      simp only [Option.some_bind]
      rw [ih (i + 1) _ hc2 hrest]
      simp only [Option.map_some']
      have hxor : key.getD ((key.getD c 0 + i + c) &&& (key.length - 1)) 0 ^^^ p < 256 := by
        have h8 : (256 : Nat) = 2 ^ 8 := by norm_num
        rw [h8] at hk2 hpb ⊢
        exact Nat.xor_lt_two_pow hk2 hpb
      rw [pyCompl8_invol, Nat.mod_eq_of_lt hxor, Nat.xor_cancel_left]
    · have hodd' : ¬ i &&& 1 ≠ 0 := fun h => hodd (odd_of_and_one h)
      rw [encode, if_neg hodd]
      rw [decryptGo, if_neg hodd', ih (i + 1) c hc hrest]
      simp only [Option.map_some']

/-- Whatever the key, a successful body loop leaves even-offset bytes
(relative parity `(i + m) % 2 = 0`) unchanged. -/
theorem decryptGo_even (key : List Nat) :
    ∀ (l : List Nat) (i c : Nat) (out : List Nat),
      decryptGo key c i l = some out →
      ∀ m, (i + m) % 2 = 0 → out.get? m = l.get? m := by
  intro l
  induction l with
  | nil =>
    intro i c out h m _
    have : out = [] := by
      rw [decryptGo] at h
      exact (Option.some.injEq _ _).mp h.symm ▸ rfl
    subst this
    rfl
  | cons d rest ih =>
    intro i c out h m hm
    by_cases hodd : i &&& 1 ≠ 0
    · rw [decryptGo, if_pos hodd] at h
      rcases hget0 : key.get? c with _ | k0
      · rw [hget0] at h; simp at h
      rw [hget0] at h
      simp only [Option.some_bind] at h
      rcases hget1 : key.get? ((k0 + i + c) &&& (key.length - 1)) with _ | k1
      · rw [hget1] at h; simp at h
      rw [hget1] at h
      simp only [Option.some_bind] at h
      rcases Option.map_eq_some'.mp h with ⟨out', hout', rfl⟩
      match m with
      | 0 =>
        exfalso
        have := odd_of_and_one hodd
        omega
      | Nat.succ m' =>
        rw [List.get?_cons_succ, List.get?_cons_succ]
        exact ih (i + 1) _ out' hout' m' (by omega)
    · rw [decryptGo, if_neg hodd] at h
      rcases Option.map_eq_some'.mp h with ⟨out', hout', rfl⟩
      match m with
      | 0 => rfl
      | Nat.succ m' =>
        rw [List.get?_cons_succ, List.get?_cons_succ]
        exact ih (i + 1) c out' hout' m' (by omega)

theorem decrypt_content_eq_of_go {e key hd out : List Nat}
    (hpre : e.take hd.length = hd)
    (hgo : decryptGo key 0 0 (e.drop hd.length) = some out) :
    decrypt_content e key hd = DecryptResult.ok out := by
  rw [decrypt_content, if_neg (not_not_intro hpre), hgo]

theorem decrypt_content_err_of_go {e key hd : List Nat}
    (hpre : e.take hd.length = hd)
    (hgo : decryptGo key 0 0 (e.drop hd.length) = none) :
    decrypt_content e key hd = DecryptResult.err := by
  rw [decrypt_content, if_neg (not_not_intro hpre), hgo]

theorem decrypt_content_ok_inv {e key hd out : List Nat}
    (h : decrypt_content e key hd = DecryptResult.ok out) :
    e.take hd.length = hd ∧ decryptGo key 0 0 (e.drop hd.length) = some out := by
  by_cases hpre : e.take hd.length ≠ hd
  · rw [decrypt_content, if_pos hpre] at h
    exact DecryptResult.noConfusion h
  · have hpre' : e.take hd.length = hd := not_not.mp hpre
    refine ⟨hpre', ?_⟩
    cases hgo : decryptGo key 0 0 (e.drop hd.length) with
    | none =>
      rw [decrypt_content_err_of_go hpre' hgo] at h
      exact DecryptResult.noConfusion h
    | some d =>
      rw [decrypt_content_eq_of_go hpre' hgo] at h
      injection h with h'
      rw [← h']

/-! ## Claims about the cipher engine -/

/-- Claim C1: for every header-matched decode the body transform agrees with
the spec's recurrence (cursor starting at 0, updated at each odd position `i`
to `(key[keyIdx] + i + keyIdx) AND (keyLen - 1)`, output byte
`key[keyIdx] XOR ((NOT input[i]) AND 0xFF)`, as computed by `specTransform`);
in particular decoding `0x4142 ++ [0x10, 0x20]` with key `[0x01, 0x02]` and
header `0x4142` yields `[0x10, 0xDE]`. -/
theorem claim_C1 (key : List Nat) (hk : key ≠ []) :
    (∀ encrypted header : List Nat, encrypted.take header.length = header →
      decrypt_content encrypted key header
        = DecryptResult.ok (specTransform key 0 0 (encrypted.drop header.length))) ∧
    decrypt_content [0x41, 0x42, 0x10, 0x20] [0x01, 0x02] [0x41, 0x42]
      = DecryptResult.ok [0x10, 0xDE] := by
  constructor
  · intro e hd hpre
    exact decrypt_content_eq_of_go hpre
      (decryptGo_eq_specTransform key hk _ 0 0 (List.length_pos.mpr hk))
  · decide

theorem claim_C1_witness :
    decrypt_content [0x41, 0x42, 0x10, 0x20] [0x01, 0x02] [0x41, 0x42]
      = DecryptResult.ok [0x10, 0xDE] :=
  (claim_C1 [0x01, 0x02] (by decide)).2

/-- Claim C2: round trip — for every byte-valued plaintext, nonempty
byte-valued key and any header, decoding `header ++ encode plain` returns
exactly `plain`. -/
theorem claim_C2 (key : List Nat) (hk : key ≠ []) (hkb : ∀ b ∈ key, b < 256)
    (plain : List Nat) (hp : ∀ b ∈ plain, b < 256) (header : List Nat) :
    decrypt_content (header ++ encode key 0 0 plain) key header
      = DecryptResult.ok plain := by
  have hpre : (header ++ encode key 0 0 plain).take header.length = header :=
    List.take_left _ _
  have hdrop : (header ++ encode key 0 0 plain).drop header.length
      = encode key 0 0 plain := List.drop_left _ _
  refine decrypt_content_eq_of_go hpre ?_
  rw [hdrop]
  exact decryptGo_encode key hk hkb plain 0 0 (List.length_pos.mpr hk) hp

theorem claim_C2_witness :
    decrypt_content ([0x41] ++ encode [0x01, 0x02] 0 0 [0x10, 0x20]) [0x01, 0x02] [0x41]
      = DecryptResult.ok [0x10, 0x20] :=
  claim_C2 [0x01, 0x02] (by decide) (by decide) [0x10, 0x20] (by decide) [0x41]

/-- Claim C3: header gating — `decrypt_content` returns `noMatch` exactly
when the first `len(header)` bytes of the input differ from the header (for
every key), and every input shorter than the header mismatches. -/
theorem claim_C3 (encrypted key header : List Nat) :
    (decrypt_content encrypted key header = DecryptResult.noMatch ↔
      encrypted.take header.length ≠ header) ∧
    (encrypted.length < header.length →
      decrypt_content encrypted key header = DecryptResult.noMatch) := by
  have hfwd : ∀ hne : encrypted.take header.length ≠ header,
      decrypt_content encrypted key header = DecryptResult.noMatch := by
    intro hne
    rw [decrypt_content, if_pos hne]
  constructor
  · constructor
    · intro h hpre
      rw [decrypt_content, if_neg (not_not_intro hpre)] at h
      cases hgo : decryptGo key 0 0 (encrypted.drop header.length) with
      | none => rw [hgo] at h; exact DecryptResult.noConfusion h
      | some d => rw [hgo] at h; exact DecryptResult.noConfusion h
    · exact hfwd
  · intro hlen
    refine hfwd ?_
    intro heq
    have h1 : (encrypted.take header.length).length ≤ encrypted.length := by
      rw [List.length_take]
      exact inf_le_right
    rw [heq] at h1
    omega

theorem claim_C3_witness :
    decrypt_content [1] [1] [2, 3] = DecryptResult.noMatch :=
  (claim_C3 [1] [1] [2, 3]).2 (by decide)

/-- Claim C8: even-byte invariance — on every successful decode, every
even-indexed output byte equals the corresponding post-header input byte. -/
theorem claim_C8 (encrypted key header out : List Nat)
    (h : decrypt_content encrypted key header = DecryptResult.ok out) :
    ∀ i, i % 2 = 0 → out.get? i = (encrypted.drop header.length).get? i := by
  intro i hi
  obtain ⟨_, hgo⟩ := decrypt_content_ok_inv h
  exact decryptGo_even key _ 0 0 out hgo i (by omega)

theorem claim_C8_witness :
    ([0x10, 0xDE] : List Nat).get? 0
      = (([0x41, 0x42, 0x10, 0x20] : List Nat).drop
          ([0x41, 0x42] : List Nat).length).get? 0 :=
  claim_C8 [0x41, 0x42, 0x10, 0x20] [0x01, 0x02] [0x41, 0x42] [0x10, 0xDE]
    (by decide) 0 (by decide)

/-- Claim C9: non-power-of-two key safety — for every nonempty key the mask
keeps every key access in bounds, `decrypt_content` never raises (`err`),
header-matched inputs always yield a decoded result, and for the length-3
key `[0, 1, 2]` the AND-mask recurrence differs from true mod-length
wraparound. -/
theorem claim_C9 (key : List Nat) (hk : key ≠ []) :
    (∀ x : Nat, x &&& (key.length - 1) < key.length) ∧
    (∀ encrypted header : List Nat,
      decrypt_content encrypted key header ≠ DecryptResult.err) ∧
    (∀ encrypted header : List Nat, encrypted.take header.length = header →
      ∃ out, decrypt_content encrypted key header = DecryptResult.ok out) ∧
    decryptGo [0, 1, 2] 0 0 [5, 5] ≠ decryptModGo [0, 1, 2] 0 0 [5, 5] := by
  refine ⟨mask_lt key hk, ?_, ?_, by decide⟩
  · intro e hd
    by_cases hpre : e.take hd.length ≠ hd
    · rw [decrypt_content, if_pos hpre]
      exact fun h => DecryptResult.noConfusion h
    · rw [decrypt_content_eq_of_go (not_not.mp hpre)
        (decryptGo_eq_specTransform key hk _ 0 0 (List.length_pos.mpr hk))]
      exact fun h => DecryptResult.noConfusion h
  · intro e hd hpre
    exact ⟨_, decrypt_content_eq_of_go hpre
      (decryptGo_eq_specTransform key hk _ 0 0 (List.length_pos.mpr hk))⟩

theorem claim_C9_witness :
    (∀ x : Nat, x &&& (([0x01, 0x02] : List Nat).length - 1)
        < ([0x01, 0x02] : List Nat).length) ∧
    (∀ encrypted header : List Nat,
      decrypt_content encrypted [0x01, 0x02] header ≠ DecryptResult.err) ∧
    (∀ encrypted header : List Nat, encrypted.take header.length = header →
      ∃ out, decrypt_content encrypted [0x01, 0x02] header = DecryptResult.ok out) ∧
    decryptGo [0, 1, 2] 0 0 [5, 5] ≠ decryptModGo [0, 1, 2] 0 0 [5, 5] :=
  claim_C9 [0x01, 0x02] (by decide)

/-! ## Claims about the file decoder -/

/-- Concrete filesystem holding one file at path `["i"]` whose contents equal
the header `[7]`, used to instantiate file-decoder claims. -/
def fsHeaderOnly : FS :=
  { files := fun p => if p = ["i"] then some [7] else none
    dirs := fun _ => false }

/-- Concrete filesystem holding one file at the output path `["o"]`, used to
instantiate the skip-semantics claims. -/
def fsOutTaken : FS :=
  { files := fun p => if p = ["o"] then some [9] else none
    dirs := fun _ => false }

/-- Claim C4: an input equal to the header decodes to the empty blob, which
is distinct from `noMatch`; yet `decrypt_file` returns `false` both for
`noMatch` and for a zero-length decode. -/
theorem claim_C4 (key header : List Nat) :
    decrypt_content header key header = DecryptResult.ok [] ∧
    DecryptResult.ok [] ≠ DecryptResult.noMatch ∧
    (∀ (fs : FS) (inp outp : List String) (ow : Bool) (enc : List Nat),
      fs.files inp = some enc →
      (decrypt_content enc key header = DecryptResult.noMatch ∨
       decrypt_content enc key header = DecryptResult.ok []) →
      (decrypt_file fs inp outp key header ow).1 = false) := by
  refine ⟨?_, fun h => DecryptResult.noConfusion h, ?_⟩
  · refine decrypt_content_eq_of_go (List.take_length header) ?_
    rw [List.drop_length]
    rfl
  · intro fs inp outp ow enc henc hres
    rw [decrypt_file]
    by_cases hskip : (!ow && fs.pathExists outp) = true
    · rw [if_pos hskip]
    · rw [if_neg hskip]
      rcases hres with hres | hres <;> simp [henc, hres]

theorem claim_C4_witness :
    (decrypt_file fsHeaderOnly ["i"] ["o"] [1] [7] false).1 = false :=
  (claim_C4 [1] [7]).2.2 fsHeaderOnly ["i"] ["o"] false [7] (by decide)
    (Or.inr (by decide))

/-- Claim C5: with `overwrite = false` and an existing output path,
`decrypt_file` returns `false`, performs no filesystem event at all (in
particular it does not read the input), and leaves the filesystem — hence
the existing file's bytes — unchanged. -/
theorem claim_C5 (fs : FS) (inp outp : List String) (key header : List Nat)
    (hex : fs.pathExists outp = true) :
    decrypt_file fs inp outp key header false = (false, fs, []) := by
  rw [decrypt_file, if_pos (by rw [hex, Bool.and_true]; rfl)]

theorem claim_C5_witness :
    decrypt_file fsOutTaken ["i"] ["o"] [1] [2] false = (false, fsOutTaken, []) :=
  claim_C5 fsOutTaken ["i"] ["o"] [1] [2] (by decide)

/-- Claim C10: failure atomicity — when `decrypt_file` fails because the
output exists without overwrite, the header does not match, or the decode is
empty, it returns `false`, the filesystem is exactly what it was (no bytes
written anywhere, no directories created), and the only event possibly
performed is the read of the input. -/
theorem claim_C10 (fs : FS) (inp outp : List String) (key header : List Nat)
    (ow : Bool)
    (hreason : (!ow && fs.pathExists outp) = true ∨
      (∃ enc, fs.files inp = some enc ∧
        (decrypt_content enc key header = DecryptResult.noMatch ∨
         decrypt_content enc key header = DecryptResult.ok []))) :
    (decrypt_file fs inp outp key header ow).1 = false ∧
    (decrypt_file fs inp outp key header ow).2.1 = fs ∧
    ∀ ev ∈ (decrypt_file fs inp outp key header ow).2.2, ev = FsEvent.readF inp := by
  rcases hreason with hskip | ⟨enc, henc, hres⟩
  · rw [decrypt_file, if_pos hskip]
    exact ⟨rfl, rfl, by intro ev hev; cases hev⟩
  · by_cases hskip : (!ow && fs.pathExists outp) = true
    · rw [decrypt_file, if_pos hskip]
      exact ⟨rfl, rfl, by intro ev hev; cases hev⟩
    · rw [decrypt_file, if_neg hskip]
      rcases hres with hres | hres <;> simp [henc, hres]

theorem claim_C10_witness :
    (decrypt_file fsOutTaken ["i"] ["o"] [1] [2] false).1 = false ∧
    (decrypt_file fsOutTaken ["i"] ["o"] [1] [2] false).2.1 = fsOutTaken ∧
    ∀ ev ∈ (decrypt_file fsOutTaken ["i"] ["o"] [1] [2] false).2.2,
      ev = FsEvent.readF ["i"] :=
  claim_C10 fsOutTaken ["i"] ["o"] [1] [2] false (Or.inl (by decide))

/-! ## Claims about the batch walker -/

theorem inner_foldl_eq {γ : Type} (extension : String) (g : String → γ) :
    ∀ (files : List String) (acc : List γ),
      files.foldl (fun acc2 f => if pyEndsWith f extension then acc2 ++ [g f] else acc2) acc
        = acc ++ (files.filter (fun f => pyEndsWith f extension)).map g := by
  intro files
  induction files with
  | nil => intro acc; simp
  | cons f fl ih =>
    intro acc
    rw [List.foldl_cons]
    by_cases hf : pyEndsWith f extension = true
    · rw [if_pos hf, ih, List.filter_cons, if_pos hf]
      simp
    · rw [if_neg hf, ih, List.filter_cons, if_neg hf]

/-- The task list built by `collect_tasks`, in closed form. -/
theorem collect_tasks_eq (walkRes : List (List String × List String))
    (input_dir output_dir : List String) (extension : String) :
    collect_tasks walkRes input_dir output_dir extension
      = walkRes.flatMap (fun rf =>
          (rf.2.filter (fun f => pyEndsWith f extension)).map (fun f =>
            ((rf.1 ++ [f] : List String),
             if output_dir ≠ input_dir then
               output_dir ++ (rf.1 ++ [f]).drop input_dir.length
             else withSuffixDecoded (rf.1 ++ [f])))) := by
  suffices h : ∀ (ws : List (List String × List String))
      (acc : List (List String × List String)),
      ws.foldl
        (fun acc rf =>
          rf.2.foldl
            (fun acc2 f =>
              if pyEndsWith f extension then
                acc2 ++ [((rf.1 ++ [f] : List String),
                  if output_dir ≠ input_dir then
                    output_dir ++ (rf.1 ++ [f]).drop input_dir.length
                  else withSuffixDecoded (rf.1 ++ [f]))]
              else acc2)
            acc)
        acc
      = acc ++ ws.flatMap (fun rf =>
          (rf.2.filter (fun f => pyEndsWith f extension)).map (fun f =>
            ((rf.1 ++ [f] : List String),
             if output_dir ≠ input_dir then
               output_dir ++ (rf.1 ++ [f]).drop input_dir.length
             else withSuffixDecoded (rf.1 ++ [f])))) by
    rw [collect_tasks, h]
    rfl
  intro ws
  induction ws with
  | nil => intro acc; simp
  | cons rf ws ih =>
    intro acc
    rw [List.foldl_cons, inner_foldl_eq extension _ rf.2 acc, ih, List.flatMap_cons,
      List.append_assoc]

/-- Claim C7: every task produced by `collect_tasks` comes from a matched
file `f` under some walked root, its input path is `root ++ [f]`, and its
output path is the mirrored path under `output_dir` when the two directories
differ, else the input path with `".decoded"` appended to the filename. -/
theorem claim_C7 (walkRes : List (List String × List String))
    (input_dir output_dir : List String) (extension : String)
    (inp outp : List String)
    (hmem : (inp, outp) ∈ collect_tasks walkRes input_dir output_dir extension) :
    (∃ root files f, (root, files) ∈ walkRes ∧ f ∈ files ∧
      pyEndsWith f extension = true ∧ inp = root ++ [f]) ∧
    outp = (if output_dir ≠ input_dir then
              output_dir ++ inp.drop input_dir.length
            else inp.dropLast ++ [inp.getLastD "" ++ ".decoded"]) := by
  rw [collect_tasks_eq] at hmem
  rcases List.mem_flatMap.mp hmem with ⟨rf, hrf, hmem2⟩
  rcases List.mem_map.mp hmem2 with ⟨f, hf, heq⟩
  have hfil := List.mem_filter.mp hf
  obtain ⟨h1, h2⟩ := Prod.mk.injEq .. |>.mp heq
  subst h1
  refine ⟨⟨rf.1, rf.2, f, ?_, hfil.1, hfil.2, rfl⟩, ?_⟩
  · exact (Prod.mk.eta (p := rf)) ▸ hrf
  · rw [← h2, withSuffixDecoded]

theorem claim_C7_witness :
    (∃ root files f,
      (root, files) ∈ [((["d"] : List String), (["a.php", "b.txt"] : List String))] ∧
      f ∈ files ∧ pyEndsWith f ".php" = true ∧
      (["d", "a.php"] : List String) = root ++ [f]) ∧
    (["o", "a.php"] : List String)
      = (if (["o"] : List String) ≠ (["d"] : List String) then
           ["o"] ++ (["d", "a.php"] : List String).drop (["d"] : List String).length
         else (["d", "a.php"] : List String).dropLast
              ++ [(["d", "a.php"] : List String).getLastD "" ++ ".decoded"]) :=
  claim_C7 [(["d"], ["a.php", "b.txt"])] ["d"] ["o"] ".php" ["d", "a.php"]
    ["o", "a.php"] (by decide)

theorem foldl_count_eq (key header : List Nat) (ow : Bool) :
    ∀ (ts : List (List String × List String)) (s : Nat) (fs : FS)
      (evs : List FsEvent),
      (ts.foldl
        (fun acc t =>
          let r := decrypt_file acc.2.1 t.1 t.2 key header ow
          (acc.1 + (if r.1 then 1 else 0), r.2.1,
           acc.2.2 ++ FsEvent.progressStep :: r.2.2))
        (s, fs, evs)).1 = s + (decrypt_tasks key header ow fs ts).1 ∧
      (ts.foldl
        (fun acc t =>
          let r := decrypt_file acc.2.1 t.1 t.2 key header ow
          (acc.1 + (if r.1 then 1 else 0), r.2.1,
           acc.2.2 ++ FsEvent.progressStep :: r.2.2))
        (s, fs, evs)).2.1 = (decrypt_tasks key header ow fs ts).2 := by
  intro ts
  induction ts with
  | nil => intro s fs evs; exact ⟨(Nat.add_zero s).symm, rfl⟩
  | cons t ts ih =>
    intro s fs evs
    simp only [List.foldl_cons]
    obtain ⟨ih1, ih2⟩ := ih
      (s + (if (decrypt_file fs t.1 t.2 key header ow).1 then 1 else 0))
      (decrypt_file fs t.1 t.2 key header ow).2.1
      (evs ++ FsEvent.progressStep :: (decrypt_file fs t.1 t.2 key header ow).2.2)
    constructor
    · simp only [decrypt_tasks]
      rw [ih1]
      omega
    · simp only [decrypt_tasks]
      rw [ih2]

/-- Claim C6: batch accounting — `process_directory` returns the number of
tasks on which the sequential `decrypt_file` run succeeds, paired with the
total number of matched files; with zero matched files it returns `(0, 0)`
at once, with no events (in particular the progress reporter never starts)
and the filesystem untouched. -/
theorem claim_C6 (fs : FS) (walkRes : List (List String × List String))
    (input_dir output_dir : List String) (key header : List Nat)
    (extension : String) (ow : Bool) :
    (process_directory fs walkRes input_dir output_dir key header extension ow).1
      = ((decrypt_tasks key header ow fs
            (collect_tasks walkRes input_dir output_dir extension)).1,
         (collect_tasks walkRes input_dir output_dir extension).length) ∧
    (collect_tasks walkRes input_dir output_dir extension = [] →
      process_directory fs walkRes input_dir output_dir key header extension ow
        = ((0, 0), fs, [])) := by
  constructor
  · by_cases hnil : collect_tasks walkRes input_dir output_dir extension = []
    · simp [process_directory, hnil, decrypt_tasks]
    · have hlen : (collect_tasks walkRes input_dir output_dir extension).length ≠ 0 :=
        fun h => hnil (List.length_eq_zero.mp h)
      simp only [process_directory]
      rw [if_neg hlen]
      obtain ⟨h1, _⟩ := foldl_count_eq key header ow
        (collect_tasks walkRes input_dir output_dir extension) 0 fs
        [FsEvent.progressStart]
      rw [Prod.mk.injEq]
      exact ⟨by rw [h1]; omega, rfl⟩
  · intro hnil
    simp [process_directory, hnil]

theorem claim_C6_witness :
    process_directory fsOutTaken [] ["d"] ["o"] [1] [2] ".php" false
      = ((0, 0), fsOutTaken, []) :=
  (claim_C6 fsOutTaken [] ["d"] ["o"] [1] [2] ".php" false).2 rfl

end Decrypter
